import Mathlib

/-!
Verification development for `src/mauve/compute_mauve.py`.

The Python source is shallowly embedded in Lean.  Machine floating-point
values are modelled by exact rationals `ℚ` (real-valued transcendental
results by `ℝ`), numpy/torch tensors by lists, and fallible code by
`Except String`.  Randomness drawn from torch's *global* generator
(`torch.randperm`, which the source never seeds) is passed in explicitly
as a permutation argument, so that the embedded functions are honest
mathematical functions of all of their actual inputs.
-/

namespace Mauve

/-- Dot product of two rational vectors (`torch.mm` of a row with a column). -/
def dotQ (a b : List ℚ) : ℚ := (List.zipWith (· * ·) a b).sum

/-- Componentwise difference squared, summed: `((a - b) ** 2).sum(dim=-1)`. -/
def sqDist (a b : List ℚ) : ℚ := ((List.zipWith (· - ·) a b).map (fun x => x * x)).sum

/-- Componentwise sum of two vectors. -/
def addV (a b : List ℚ) : List ℚ := List.zipWith (· + ·) a b

/-- Scalar multiple of a vector. -/
def scaleV (c : ℚ) (v : List ℚ) : List ℚ := v.map (fun x => c * x)

/-- Maximum of a list of rationals, with `0` for the empty list (the call
sites guarantee nonemptiness; `tensor.max()` errors on empty input). -/
def maxQ : List ℚ → ℚ
  | [] => 0
  | x :: xs => xs.foldl max x

/-- Minimum of a list of rationals, with `0` for the empty list (the call
sites guarantee nonemptiness). -/
def minQ : List ℚ → ℚ
  | [] => 0
  | x :: xs => xs.foldl min x

/-- Index of the first minimal entry of a list (`torch.argmin`, which
returns the first index when the minimum is attained several times);
`0` for the empty list, which cannot occur at the call site. -/
def argminIdx (l : List ℚ) : ℕ :=
  (l.foldl (fun st x =>
      let best := st.2.1
      let i := st.2.2
      if x < best then (i, (x, i + 1)) else (st.1, (best, i + 1)))
    (0, (l.headD 0, 0))).1

/-- Model of `torch.isclose(s, torch.Tensor([1.0]))` with torch's default
tolerances `rtol = 1e-5`, `atol = 1e-8`:  true iff
`|s - 1| <= atol + rtol * |1|`. -/
def isCloseOne (s : ℚ) : Bool :=
  |s - 1| ≤ 1 / 100000000 + 1 / 100000

/-- Model of 1-dimensional `torch.nn.functional.normalize`: a scalar is sent
to its sign (`x / |x|`, and `0` for `0`).  Used to instantiate the abstract
row-normalisation parameter `nrm` on one-dimensional data, where
`F.normalize` is exactly this map. -/
def sign1D (v : List ℚ) : List ℚ :=
  v.map (fun x => if x < 0 then -1 else if x = 0 then 0 else 1)

/-- Identity row-normalisation: `F.normalize` acts as the identity on rows
that already have unit Euclidean norm. -/
def idNrm (v : List ℚ) : List ℚ := v

namespace KMeans

/-- Seeding of the initial cluster centers (`KMeans.fit_once`, the loop over
`torch.randperm(unique_encodings.shape[0])`): scan the unique points in the
order given by the permutation; the first scanned point always becomes a
center, a later point becomes one only when the maximum dot product with the
centers collected so far is not `isclose` to `1`; stop as soon as `effK`
centers are collected (the `break` sits inside the accepting branch). -/
def seedCenters (uniq : List (List ℚ)) (effK : ℕ) :
    List ℕ → List (List ℚ) → List (List ℚ)
  | [], centers => centers
  | idx :: rest, centers =>
    if centers.isEmpty then
      seedCenters uniq effK rest [uniq.getD idx []]
    else
      let cand := uniq.getD idx []
      if isCloseOne (maxQ (centers.map (fun c => dotQ c cand))) then
        seedCenters uniq effK rest centers
      else
        let centers' := centers ++ [cand]
        if centers'.length = effK then centers'
        else seedCenters uniq effK rest centers'

/-- Model of `KMeans.group_points`: each point is assigned to the center of
minimal `1 - dot` distance, and the per-point minimal distances are summed
into the loss.  The source computes the same quantities chunkwise (slices of
the point list bounded by a capacity), which concatenates the per-chunk
assignments and adds the per-chunk losses; that chunking is the identity on
the result and is not reproduced here. -/
def groupPoints (centers : List (List ℚ)) (enc : List (List ℚ)) :
    List ℕ × ℚ :=
  let dists := enc.map (fun e => centers.map (fun c => 1 - dotQ c e))
  (dists.map argminIdx, (dists.map minQ).sum)

/-- Model of `KMeans.update_centers`: the new center `i` is the mean of the
points assigned to `i`, stabilised by `1e-6` times the old center in the
numerator and `1e-6` in the count, then re-normalised (`nrm`).  The in-place
division `sum_vec.div_(count_vec.unsqueeze(1))` divides a
`(centers.length, hs)` tensor by a `(effK, 1)` tensor; torch only accepts
this when the shapes broadcast *onto* `sum_vec`, i.e. when
`effK = centers.length` (or `effK = 1`, which forces `centers.length = 1`);
otherwise it raises, which the model reports as an error. -/
def updateCenters (nrm : List ℚ → List ℚ) (effK : ℕ)
    (labels : List ℕ) (enc : List (List ℚ)) (centers : List (List ℚ)) :
    Except String (List (List ℚ)) :=
  if centers.length = effK ∨ effK = 1 then
    Except.ok <| (List.range centers.length).map (fun i =>
      let members := ((labels.zip enc).filter (fun pr => pr.1 = i)).map (·.2)
      let sumVec := members.foldl addV (scaleV (1 / 1000000) (centers.getD i []))
      let cnt : ℚ := 1 / 1000000 + members.length
      nrm (sumVec.map (fun x => x / cnt)))
  else
    Except.error "update centers shape mismatch"

/-- Model of the iteration loop of `KMeans.fit_once`.  Each pass computes the
assignment and loss for the current centers, then the updated centers, then
the maximal squared center movement; it stops (returning the assignment and
loss of the *current* pass) when the movement falls below `minVar` or the
iteration budget `fuel = max_iter` is exhausted.  (The `np.isnan(loss)` exit
cannot fire in exact rational arithmetic.)  A zero budget means the Python
`for` loop never binds `group_index`, which raises; the model errors. -/
def kmeansIter (nrm : List ℚ → List ℚ) (effK : ℕ) (minVar : ℚ)
    (enc : List (List ℚ)) : ℕ → List (List ℚ) → Except String (List ℕ × ℚ)
  | 0, _ => Except.error "max iter must be at least one"
  | fuel + 1, centers => do
    let (labels, loss) := groupPoints centers enc
    let newCenters ← updateCenters nrm effK labels enc centers
    let movement := maxQ (List.zipWith sqDist centers newCenters)
    if movement < minVar ∨ fuel = 0 then
      Except.ok (labels, loss)
    else
      kmeansIter nrm effK minVar enc fuel newCenters

/-- Model of `KMeans.fit_once`.  The rows are normalised (`nrm` stands for
`torch.nn.functional.normalize`), exact duplicate rows are removed
(`torch.unique(encodings, dim=0)`; torch returns the distinct rows sorted,
but they are only ever consumed through the exogenous permutation `perm`, so
the model keeps first occurrences), the effective cluster count is silently
reduced to the number of distinct rows (`self.n_clusters` is overwritten),
centers are seeded along `perm`, and the iteration loop runs.  An empty
point set leaves `centers = None` in the source, which then raises. -/
def fitOnce (nrm : List ℚ → List ℚ) (k maxIter : ℕ) (minVar : ℚ)
    (pts : List (List ℚ)) (perm : List ℕ) :
    Except String (List ℕ × ℚ × ℕ) := do
  let enc := pts.map nrm
  let uniq := enc.dedup
  let effK := min k uniq.length
  let centers := seedCenters uniq effK perm []
  if centers.isEmpty then
    Except.error "no centers"
  else
    let (labels, loss) ← kmeansIter nrm effK minVar enc maxIter centers
    Except.ok (labels, loss, effK)

/-- The restart-selection loop of `KMeans.fit` (lines 383-389), verbatim:
`best_group_index, min_loss = None, 1e10`, then for each restart result
`(group_index, loss)`, `if loss < min_loss: best_group_index = group_index`.
Note that `min_loss` is never reassigned inside the loop. -/
def selectBestRestart {α : Type} (results : List (α × ℚ)) : Option α :=
  (results.foldl
    (fun st r => (if r.2 < st.2 then some r.1 else st.1, st.2))
    ((none : Option α), (10000000000 : ℚ))).1

/-- The restart selection that the specification describes: the assignment of
the restart whose final loss is minimal, ties broken in favour of the first
restart attaining the minimum.  (Definition written from the spec's words,
for comparison with `selectBestRestart` above.) -/
def firstMinRestart {α : Type} (results : List (α × ℚ)) : Option α :=
  (results.foldl
    (fun st r =>
      match st with
      | none => some r
      | some b => if r.2 < b.2 then some r else st)
    none).map (·.1)

/-- Model of `KMeans.fit`: reject `n_clusters < 1`; short-circuit
`n_clusters == 1` to the all-zero assignment; otherwise run `n_init`
restarts of `fit_once` (each consuming one permutation from `perms`, the
values produced by the unseeded `torch.randperm`) and keep the assignment
chosen by the restart-selection loop.  When no restart is selected the
source dereferences `None`, which the model reports as an error.  (The
`while np.isnan(loss)` retry never fires in exact arithmetic.)  The
returned value is the per-point label list (the source materialises the
same data as a list of clusters and immediately flattens it back to
labels in `cluster_feats`). -/
def fit (nrm : List ℚ → List ℚ) (k nInit maxIter : ℕ) (minVar : ℚ)
    (pts : List (List ℚ)) (perms : List (List ℕ)) :
    Except String (List ℕ) := do
  if k < 1 then
    Except.error "the number of clusters should be at least 1"
  else if k = 1 then
    Except.ok (List.replicate pts.length 0)
  else
    let results ← (List.range nInit).mapM
      (fun i => fitOnce nrm k maxIter minVar pts (perms.getD i []))
    match selectBestRestart (results.map (fun r => (r.1, r.2.1))) with
    | none => Except.error "no restart selected"
    | some labels => Except.ok labels

end KMeans

/-- Model of `np.histogram(labels, bins=k, range=[0, k], density=True)`
followed by the explicit renormalisation `bins / bins.sum()` in
`cluster_feats`: with unit-width integer bins, `density=True` already
divides each count by the number of samples, and the second normalisation
divides by the resulting total.  (For an empty label list the source
produces NaNs from `0/0`; rational division by zero yields `0` here, and
every claim below uses nonempty populations.) -/
def histNorm (k : ℕ) (labels : List ℕ) : List ℚ :=
  let dens := (List.range k).map
    (fun b => ((labels.filter (fun l => l = b)).length : ℚ) / labels.length)
  dens.map (fun x => x / dens.sum)

/-- The clustering-and-binning tail of `cluster_feats` (lines 303-325),
taking the reduced pooled matrix (rows of `Q` first, then `P`) as input:
run `KMeans.fit`, split the labels at `len(q)`, and build the two
normalised histograms over the *requested* `num_clusters` bins.  Returns
`(p_hist, q_hist)` like the source. -/
def clusterHists (nrm : List ℚ → List ℚ) (k nInit maxIter : ℕ) (minVar : ℚ)
    (nq : ℕ) (data : List (List ℚ)) (perms : List (List ℕ)) :
    Except String (List ℚ × List ℚ) := do
  let labels ← KMeans.fit nrm k nInit maxIter minVar data perms
  let qLabels := labels.take nq
  let pLabels := labels.drop nq
  Except.ok (histNorm k pLabels, histNorm k qLabels)

/-- The two ways `cluster_feats` can fit the PCA projection. -/
inductive PcaFit : Type
  | allRows : PcaFit
  | sampled : ℕ → PcaFit
deriving DecidableEq

/-- The `pca_max_data` branch of `cluster_feats` (lines 273-281) on a pooled
matrix of `n` rows: `pca_max_data < 0` or `pca_max_data >= n` fits on all
rows; `0 < pca_max_data < n` fits on a uniform sample of `pca_max_data`
rows; anything else (`pca_max_data = 0` with `0 < n`) raises `ValueError`. -/
def pcaFitSelection (pcaMaxData : ℤ) (n : ℕ) : Except String PcaFit :=
  if pcaMaxData < 0 ∨ (n : ℤ) ≤ pcaMaxData then Except.ok PcaFit.allRows
  else if 0 < pcaMaxData ∧ pcaMaxData < (n : ℤ) then
    Except.ok (PcaFit.sampled pcaMaxData.toNat)
  else Except.error "invalid argument pca max data"

/-- Modelled from the spec's words ('if `pca_max_data` ≤ 0, use all rows; if
it exceeds N, that is an input error'; otherwise a uniformly sampled subset
of `pca_max_data` rows), for comparison with `pcaFitSelection`. -/
def claimPcaFit (pcaMaxData : ℤ) (n : ℕ) : Except String PcaFit :=
  if pcaMaxData ≤ 0 then Except.ok PcaFit.allRows
  else if (n : ℤ) < pcaMaxData then Except.error "pca max data exceeds rows"
  else Except.ok (PcaFit.sampled pcaMaxData.toNat)

/-- The guard of `kl_multinomial`:
`np.logical_and(p != 0, q == 0).any()` over the aligned bins. -/
def klCond (l : List (ℚ × ℚ)) : Bool :=
  l.any (fun pr => decide (pr.1 ≠ 0 ∧ pr.2 = 0))

/-- The summed bins of `kl_multinomial`:
`idxs = np.logical_and(p != 0, q != 0)`. -/
def klFilter (l : List (ℚ × ℚ)) : List (ℚ × ℚ) :=
  l.filter (fun pr => decide (pr.1 ≠ 0 ∧ pr.2 ≠ 0))

/-- Model of `kl_multinomial(p, q)`: `np.inf` (encoded `none`) when some bin
has `p != 0` and `q == 0`, and otherwise
`sum over bins with p != 0 and q != 0 of p * log(p / q)`.  The logarithm is
a parameter `lg` (instantiated with the real logarithm in `ratLog` below);
the bin values are exact rationals. -/
def klMultinomial (lg : ℚ → ℝ) (p q : List ℚ) : Option ℝ :=
  if klCond (p.zip q) then none
  else some ((klFilter (p.zip q)).map
    (fun pr => (pr.1 : ℝ) * lg (pr.1 / pr.2))).sum

/-- Modelled from the spec's words for claim C7: '+∞ if any bin has a>0 and
b==0', otherwise 'the sum over bins where a>0 [and b>0] of a·log(a/b)',
for comparison with `klMultinomial`. -/
def klSpecConvention (lg : ℚ → ℝ) (p q : List ℚ) : Option ℝ :=
  if (p.zip q).any (fun pr => decide (0 < pr.1 ∧ pr.2 = 0)) then none
  else some (((p.zip q).filter (fun pr => decide (0 < pr.1 ∧ 0 < pr.2))).map
    (fun pr => (pr.1 : ℝ) * lg (pr.1 / pr.2))).sum

/-- The real logarithm on rationals, used to instantiate `lg`. -/
noncomputable def ratLog (t : ℚ) : ℝ := Real.log (t : ℝ)

/-- One summand of `get_fronter_integral` for the aligned bin pair
`(p1, q1)`: `0` when both are zero, the nonzero value over `4` when exactly
one is zero, `0.25*(p1+q1) - 0.5*(p1*q1*(log p1 - log q1)/(p1-q1))` when
both are nonzero and `|p1 - q1| > 1e-8`, and `0` otherwise.  The logarithm
is an abstract parameter `lg`; the identities proved below hold for every
choice of `lg`, in particular for `math.log`. -/
def fiTerm (lg : ℚ → ℚ) (pr : ℚ × ℚ) : ℚ :=
  if pr.1 = 0 ∧ pr.2 = 0 then 0
  else if pr.1 = 0 then pr.2 / 4
  else if pr.2 = 0 then pr.1 / 4
  else if 1 / 100000000 < |pr.1 - pr.2| then
    (1 / 4) * (pr.1 + pr.2) - (1 / 2) * (pr.1 * pr.2 * (lg pr.1 - lg pr.2) / (pr.1 - pr.2))
  else 0

/-- Model of `get_fronter_integral(p, q, scaling_factor)`: the sum of the
per-bin contributions over `zip(p, q)`, multiplied by the scaling factor
(the source default is `2`). -/
def fronterIntegral (lg : ℚ → ℚ) (p q : List ℚ) (scaling : ℚ) : ℚ :=
  ((p.zip q).map (fiTerm lg)).sum * scaling

/-- Model of `np.linspace(a, b, n)` (with endpoint): `n` evenly spaced
rationals from `a` to `b`. -/
def linspaceQ (a b : ℚ) (n : ℕ) : List ℚ :=
  if n = 0 then []
  else if n = 1 then [a]
  else (List.range n).map (fun (i : ℕ) => a + (i : ℚ) * (b - a) / ((n : ℚ) - 1))

/-- The mixture weights of `compute_mauve` (line 158):
`np.linspace(1e-6, 1 - 1e-6, divergence_curve_discretization_size)`. -/
def mixtureWeightsModel (m : ℕ) : List ℚ :=
  linspaceQ (1 / 1000000) (1 - 1 / 1000000) m

/-- The mixture `r = w*p + (1-w)*q` of `get_divergence_curve_for_multinomials`. -/
def mixQ (w : ℚ) (p q : List ℚ) : List ℚ :=
  List.zipWith (fun pi qi => w * pi + (1 - w) * qi) p q

/-- The elementwise transform `np.exp(-scaling_factor * curve)` on a KL
value, where `none` stands for the literal `np.inf` of the prepended and
appended extreme points: for a positive scaling factor `c`,
`np.exp(-c * np.inf) = 0.0` exactly.  (Every statement below assumes
`0 < c`; the pipeline's `mauve_scaling_factor` defaults to `5`.) -/
noncomputable def expNegC (c : ℝ) : Option ℝ → ℝ
  | some t => Real.exp (-(c * t))
  | none => 0

/-- Model of `get_divergence_curve_for_multinomials(p, q, ws, c)`: prepend
the extreme KL pair `(0, inf)`, then for each mixture weight `w` of the
sorted weight list append `(KL(q ‖ r), KL(p ‖ r))` with `r = w*p + (1-w)*q`,
append the extreme pair `(inf, 0)`, and map every entry through
`x ↦ exp(-c*x)`. -/
noncomputable def divergenceCurve (p q : List ℚ) (ws : List ℚ) (c : ℝ) :
    List (ℝ × ℝ) :=
  (((some (0 : ℝ), (none : Option ℝ)) ::
      (ws.insertionSort (· ≤ ·)).map (fun w =>
        let r := mixQ w p q
        (klMultinomial ratLog q r, klMultinomial ratLog p r)) ++
      [((none : Option ℝ), some (0 : ℝ))]).map
    (fun pr => (expNegC c pr.1, expNegC c pr.2)))

/-- Python's built-in `round` on an exact rational: round half to even. -/
def pyRound (x : ℚ) : ℤ :=
  let f := ⌊x⌋
  let r := x - f
  if r < 1 / 2 then f
  else if 1 / 2 < r then f + 1
  else if f % 2 = 0 then f else f + 1

/-- The three shapes the `num_buckets` argument of `compute_mauve` can
take: the string `"auto"`, a Python `int`, or anything else. -/
inductive NumBucketsArg : Type
  | auto : NumBucketsArg
  | intArg : ℤ → NumBucketsArg
  | invalid : NumBucketsArg

/-- The `num_buckets` resolution of `compute_mauve` (lines 130-136), with
`np` and `nq` the row counts of the two feature matrices:  `"auto"` becomes
`max(2, int(round(min(np, nq) / 10)))`, an integer is passed through, and
anything else raises `ValueError` (before any clustering work starts). -/
def resolveNumBuckets (arg : NumBucketsArg) (rp rq : ℕ) : Except String ℤ :=
  match arg with
  | NumBucketsArg.auto => Except.ok (max 2 (pyRound ((min rp rq : ℚ) / 10)))
  | NumBucketsArg.intArg z => Except.ok z
  | NumBucketsArg.invalid =>
      Except.error "num buckets is expected to be an integer or auto"

/-! Helper lemmas. -/

lemma fiTerm_comm (lg : ℚ → ℚ) (x y : ℚ) : fiTerm lg (x, y) = fiTerm lg (y, x) := by
  unfold fiTerm
  by_cases hx : x = 0 <;> by_cases hy : y = 0
  · simp [hx, hy]
  · simp [hx, hy]
  · simp [hx, hy]
  · simp only [hx, hy, if_neg, and_false, false_and, if_false]
    rw [abs_sub_comm]
    split_ifs with h
    · have h1 : y * x * (lg y - lg x) = -(x * y * (lg x - lg y)) := by ring
      have h2 : y - x = -(x - y) := by ring
      rw [h1, h2, neg_div_neg_eq]
      ring
    · rfl

lemma fiTerm_self (lg : ℚ → ℚ) (x : ℚ) : fiTerm lg (x, x) = 0 := by
  unfold fiTerm
  by_cases hx : x = 0 <;> simp [hx]

lemma zip_self_eq_map (l : List ℚ) : l.zip l = l.map (fun x => (x, x)) := by
  induction l with
  | nil => rfl
  | cons a t ih => simp [List.zip_cons_cons, ih]

lemma linspaceQ_length (a b : ℚ) (n : ℕ) : (linspaceQ a b n).length = n := by
  unfold linspaceQ
  split_ifs with h0 h1
  · simp [h0]
  · simp [h1]
  · rw [List.length_map, List.length_range]

/-! Theorems for the claims. -/

/-- C1: the restart-selection loop of `KMeans.fit` does not keep the
assignment of the restart with the minimal final loss.  Because `min_loss`
is never reassigned inside the loop, every restart whose loss is below the
initial sentinel `1e10` overwrites `best_group_index`, so the *last* such
restart wins.  On the restart results `[(assignment 0, loss 1), (assignment
1, loss 2)]` the source keeps assignment `1` (loss `2`), while the
specified first-minimal selection (`firstMinRestart`) keeps assignment `0`
(loss `1`). -/
theorem c1_restart_selection_keeps_last :
    KMeans.selectBestRestart [((0 : ℕ), (1 : ℚ)), (1, 2)] = some 1 ∧
    KMeans.firstMinRestart [((0 : ℕ), (1 : ℚ)), (1, 2)] = some 0 := by
  constructor <;> with_unfolding_all rfl

/-- C2: the cluster histograms are not a function of (inputs, configuration,
seed).  The center seeding of `KMeans.fit_once` consumes
`torch.randperm(...)`, drawn from torch's global generator, which the
`seed` argument never seeds (`seed` only reaches the PCA stage).  On the
reduced pooled point set `[[1], [-1], [-1]]` (one `Q` row then two `P`
rows), `num_clusters = 2`, `num_redo = 1`, `max_iter = 500` — everything
else held fixed, in particular any `seed` — the global-generator
permutation `[0, 1]` of the two distinct normalised points yields
`(p_hist, q_hist) = ([0, 1], [1, 0])` while the permutation `[1, 0]`
yields `([1, 0], [0, 1])`. -/
theorem c2_histograms_depend_on_unseeded_permutation :
    clusterHists sign1D 2 1 500 (1 / 1000) 1 [[1], [-1], [-1]] [[0, 1]] =
      Except.ok ([0, 1], [1, 0]) ∧
    clusterHists sign1D 2 1 500 (1 / 1000) 1 [[1], [-1], [-1]] [[1, 0]] =
      Except.ok ([1, 0], [0, 1]) ∧
    (([0, 1], [1, 0]) : List ℚ × List ℚ) ≠ ([1, 0], [0, 1]) := by
  refine ⟨by with_unfolding_all rfl, by with_unfolding_all rfl, by with_unfolding_all decide⟩

/-- C8: requesting more clusters than there are unique points can crash the
quantizer.  The two rows below are distinct exact unit vectors whose dot
product `999999/1000001` is within `torch.isclose` tolerance of `1`, so
center seeding accepts only one of them while the effective cluster count
was reduced to `2 = #unique < 3 = requested`; `update_centers` then divides
a 1-row `sum_vec` by a 2-entry `count_vec`, an in-place broadcast that
torch rejects.  (`F.normalize` is the identity on these exact unit rows,
hence the `idNrm` instantiation.) -/
theorem c8_near_duplicate_rows_crash :
    ([[1, 0], [999999 / 1000001, 2000 / 1000001]] : List (List ℚ)).dedup.length = 2 ∧
    KMeans.fit idNrm 3 1 500 (1 / 1000)
        [[1, 0], [999999 / 1000001, 2000 / 1000001]] [[0, 1]] =
      Except.error "update centers shape mismatch" := by
  refine ⟨by with_unfolding_all decide, by with_unfolding_all rfl⟩

/-- C4 counterexample: the claim's reading of the `pca_max_data` branch is
false on the code at `pca_max_data = 0` with `4` pooled rows (the claim
says all rows are used, the code raises `ValueError`) and at
`pca_max_data = 9` with `4` pooled rows (the claim says input error, the
code fits on all rows). -/
theorem c4_counterexample :
    pcaFitSelection 0 4 = Except.error "invalid argument pca max data" ∧
    claimPcaFit 0 4 = Except.ok PcaFit.allRows ∧
    pcaFitSelection 9 4 = Except.ok PcaFit.allRows ∧
    claimPcaFit 9 4 = Except.error "pca max data exceeds rows" := by
  refine ⟨by with_unfolding_all rfl, by with_unfolding_all rfl, by with_unfolding_all rfl, by with_unfolding_all rfl⟩

/-- C4 (amended): on a pooled matrix of `n` rows, the reducer fits on all
rows when `pca_max_data < 0` or `pca_max_data ≥ n`, fits on a uniformly
sampled subset of `pca_max_data` rows when `0 < pca_max_data < n`, and
fails with an input error exactly when `pca_max_data = 0` with `n > 0`. -/
theorem c4_pca_fit_selection (pmd : ℤ) (n : ℕ) :
    (pmd < 0 ∨ (n : ℤ) ≤ pmd → pcaFitSelection pmd n = Except.ok PcaFit.allRows) ∧
    (0 < pmd ∧ pmd < (n : ℤ) →
      pcaFitSelection pmd n = Except.ok (PcaFit.sampled pmd.toNat)) ∧
    (pmd = 0 ∧ 0 < n →
      pcaFitSelection pmd n = Except.error "invalid argument pca max data") := by
  unfold pcaFitSelection
  refine ⟨fun h => by rw [if_pos h], fun h => ?_, fun h => ?_⟩
  · have h1 : ¬(pmd < 0 ∨ (n : ℤ) ≤ pmd) := by omega
    rw [if_neg h1, if_pos h]
  · have h1 : ¬(pmd < 0 ∨ (n : ℤ) ≤ pmd) := by omega
    have h2 : ¬(0 < pmd ∧ pmd < (n : ℤ)) := by omega
    rw [if_neg h1, if_neg h2]

/-- Witness for C4: the three branches of `c4_pca_fit_selection` at the
concrete inputs `(-1, 5)`, `(3, 5)` and `(0, 5)`. -/
theorem c4_witness :
    (((-1 : ℤ) < 0 ∨ (5 : ℤ) ≤ -1) ∧
      pcaFitSelection (-1) 5 = Except.ok PcaFit.allRows) ∧
    ((0 < (3 : ℤ) ∧ (3 : ℤ) < (5 : ℤ)) ∧
      pcaFitSelection 3 5 = Except.ok (PcaFit.sampled 3)) ∧
    (((0 : ℤ) = 0 ∧ 0 < 5) ∧
      pcaFitSelection 0 5 = Except.error "invalid argument pca max data") := by
  refine ⟨⟨by decide, (c4_pca_fit_selection (-1) 5).1 (by decide)⟩,
    ⟨by decide, (c4_pca_fit_selection 3 5).2.1 (by decide)⟩,
    ⟨by decide, (c4_pca_fit_selection 0 5).2.2 (by decide)⟩⟩


/-- C5: the frontier integral is symmetric in its two histograms and
vanishes on identical histograms, for every choice of the logarithm
function (in particular for `math.log`), every pair of equal-length
non-negative histograms summing to one, and the source's scaling factor
`2`. -/
theorem c5_fronter_integral_symmetric (lg : ℚ → ℚ) (p q : List ℚ)
    (hlen : p.length = q.length)
    (hp : ∀ x ∈ p, 0 ≤ x) (hq : ∀ x ∈ q, 0 ≤ x)
    (hps : p.sum = 1) (hqs : q.sum = 1) :
    fronterIntegral lg p q 2 = fronterIntegral lg q p 2 ∧
    fronterIntegral lg p p 2 = 0 := by
  constructor
  · unfold fronterIntegral
    congr 1
    rw [← List.zip_swap p q, List.map_map]
    exact congrArg List.sum
      (List.map_congr_left fun (pr : ℚ × ℚ) _ => fiTerm_comm lg pr.1 pr.2)
  · unfold fronterIntegral
    rw [zip_self_eq_map, List.map_map]
    have hz : ((p.map (fiTerm lg ∘ fun x => (x, x))).sum) = 0 := by
      apply List.sum_eq_zero
      intro x hx
      rcases List.mem_map.mp hx with ⟨y, _, hy⟩
      rw [← hy]
      exact fiTerm_self lg y
    rw [hz, zero_mul]

/-- Witness for C5 at the concrete histograms `[1/2, 1/2]` and
`[1/4, 3/4]` with the zero logarithm. -/
theorem c5_witness :
    (([1/2, 1/2] : List ℚ).length = ([1/4, 3/4] : List ℚ).length ∧
     (∀ x ∈ ([1/2, 1/2] : List ℚ), 0 ≤ x) ∧
     (∀ x ∈ ([1/4, 3/4] : List ℚ), 0 ≤ x) ∧
     ([1/2, 1/2] : List ℚ).sum = 1 ∧ ([1/4, 3/4] : List ℚ).sum = 1) ∧
    (fronterIntegral (fun _ => 0) [1/2, 1/2] [1/4, 3/4] 2 =
       fronterIntegral (fun _ => 0) [1/4, 3/4] [1/2, 1/2] 2 ∧
     fronterIntegral (fun _ => 0) [1/2, 1/2] [1/2, 1/2] 2 = 0) := by
  refine ⟨⟨by with_unfolding_all decide, by with_unfolding_all decide,
      by with_unfolding_all decide, by with_unfolding_all decide,
      by with_unfolding_all decide⟩,
    c5_fronter_integral_symmetric (fun _ => 0) [1/2, 1/2] [1/4, 3/4]
      (by with_unfolding_all decide) (by with_unfolding_all decide)
      (by with_unfolding_all decide) (by with_unfolding_all decide)
      (by with_unfolding_all decide)⟩

/-- C9: the divergence curve built from the pipeline's mixture-weight grid
of `m = divergence_curve_discretization_size` points has exactly `m + 2`
points: one per mixture weight, plus the prepended and the appended
extreme point. -/
theorem c9_curve_length (p q : List ℚ) (c : ℝ) (m : ℕ) :
    (divergenceCurve p q (mixtureWeightsModel m) c).length = m + 2 := by
  unfold divergenceCurve
  rw [List.length_map, List.cons_append, List.length_cons, List.length_append,
    List.length_map, List.length_insertionSort]
  unfold mixtureWeightsModel
  rw [linspaceQ_length]
  simp

/-- C10: with `num_buckets = "auto"` the resolved cluster count is
`max(2, round(min(n_p, n_q) / 10))` with Python's round-half-to-even; for
`n_p = n_q = 1000` it resolves to `100`; and any `num_buckets` that is
neither `"auto"` nor an integer raises `ValueError` (in `compute_mauve`
this happens before `cluster_feats` is ever entered). -/
theorem c10_num_buckets_resolution :
    resolveNumBuckets NumBucketsArg.auto 1000 1000 = Except.ok 100 ∧
    (∀ rp rq : ℕ, resolveNumBuckets NumBucketsArg.auto rp rq =
      Except.ok (max 2 (pyRound ((min rp rq : ℚ) / 10)))) ∧
    (∀ rp rq : ℕ, resolveNumBuckets NumBucketsArg.invalid rp rq =
      Except.error "num buckets is expected to be an integer or auto") := by
  refine ⟨by with_unfolding_all rfl, fun _ _ => rfl, fun _ _ => rfl⟩

/-! Lemmas for the KL divergence and the divergence curve. -/

lemma sum_map_ratCast (l : List ℚ) :
    (l.map (fun x : ℚ => (x : ℝ))).sum = ((l.sum : ℚ) : ℝ) := by
  induction l with
  | nil => simp
  | cons a t ih =>
    simp only [List.map_cons, List.sum_cons, Rat.cast_add]
    rw [ih]

lemma zip_map_fst_cast (p q : List ℚ) (h : p.length ≤ q.length) :
    ((p.zip q).map (fun pr => (pr.1 : ℝ))).sum = ((p.sum : ℚ) : ℝ) := by
  have h1 : (p.zip q).map (fun pr => (pr.1 : ℝ)) = p.map (fun x : ℚ => (x : ℝ)) := by
    calc (p.zip q).map (fun pr => (pr.1 : ℝ))
        = ((p.zip q).map Prod.fst).map (fun x : ℚ => (x : ℝ)) := by
          rw [List.map_map]; rfl
      _ = p.map (fun x : ℚ => (x : ℝ)) := by rw [List.map_fst_zip p q h]
  rw [h1, sum_map_ratCast]

lemma sum_snd_zip_le (p q : List ℚ) (hq : ∀ x ∈ q, 0 ≤ x) :
    ((p.zip q).map (fun pr => (pr.2 : ℝ))).sum ≤ ((q.sum : ℚ) : ℝ) := by
  induction p generalizing q with
  | nil =>
    simp only [List.zip_nil_left, List.map_nil, List.sum_nil]
    exact_mod_cast List.sum_nonneg hq
  | cons a t ih =>
    cases q with
    | nil => simp
    | cons b s =>
      have hb := hq b (List.mem_cons_self b s)
      have hs : ∀ x ∈ s, 0 ≤ x := fun x hx => hq x (List.mem_cons_of_mem _ hx)
      have := ih s hs
      simp only [List.zip_cons_cons, List.map_cons, List.sum_cons]
      push_cast
      push_cast at this
      linarith

lemma klFilter_fst_sum (l : List (ℚ × ℚ)) (h : ∀ pr ∈ l, ¬(pr.1 ≠ 0 ∧ pr.2 = 0)) :
    ((klFilter l).map (fun pr => (pr.1 : ℝ))).sum = (l.map (fun pr => (pr.1 : ℝ))).sum := by
  induction l with
  | nil => rfl
  | cons a t ih =>
    have ha := h a (List.mem_cons_self a t)
    have ht : ∀ pr ∈ t, ¬(pr.1 ≠ 0 ∧ pr.2 = 0) :=
      fun pr hpr => h pr (List.mem_cons_of_mem _ hpr)
    unfold klFilter at ih ⊢
    rw [List.filter_cons]
    by_cases hcnd : a.1 ≠ 0 ∧ a.2 ≠ 0
    · rw [if_pos (by simpa using hcnd)]
      simp only [List.map_cons, List.sum_cons, ih ht]
    · have ha1 : a.1 = 0 := by
        by_contra hne
        by_cases h2 : a.2 = 0
        · exact ha ⟨hne, h2⟩
        · exact hcnd ⟨hne, h2⟩
      rw [if_neg (by simpa using hcnd)]
      simp only [List.map_cons, List.sum_cons, ih ht, ha1]
      norm_num

lemma klFilter_snd_sum_le (l : List (ℚ × ℚ)) (h : ∀ pr ∈ l, 0 ≤ pr.2) :
    ((klFilter l).map (fun pr => (pr.2 : ℝ))).sum ≤ (l.map (fun pr => (pr.2 : ℝ))).sum := by
  induction l with
  | nil => exact le_refl _
  | cons a t ih =>
    have ha := h a (List.mem_cons_self a t)
    have ht : ∀ pr ∈ t, 0 ≤ pr.2 := fun pr hpr => h pr (List.mem_cons_of_mem _ hpr)
    have har : (0 : ℝ) ≤ (a.2 : ℝ) := by exact_mod_cast ha
    unfold klFilter at ih ⊢
    rw [List.filter_cons]
    split
    · simp only [List.map_cons, List.sum_cons]
      exact add_le_add_left (ih ht) _
    · calc ((List.filter _ t).map (fun pr => (pr.2 : ℝ))).sum
          ≤ (t.map (fun pr => (pr.2 : ℝ))).sum := ih ht
        _ ≤ (a.2 : ℝ) + (t.map (fun pr => (pr.2 : ℝ))).sum := le_add_of_nonneg_left har
        _ = ((a :: t).map (fun pr => (pr.2 : ℝ))).sum := by
            simp only [List.map_cons, List.sum_cons]

lemma sum_map_sub_pair (L : List (ℚ × ℚ)) (f g : ℚ × ℚ → ℝ) :
    (L.map (fun pr => f pr - g pr)).sum = (L.map f).sum - (L.map g).sum := by
  induction L with
  | nil => simp
  | cons a t ih =>
    simp only [List.map_cons, List.sum_cons, ih]
    ring

lemma kl_term_lower (x y : ℚ) (hx : 0 < x) (hy : 0 < y) :
    (x : ℝ) - (y : ℝ) ≤ (x : ℝ) * ratLog (x / y) := by
  have hxr : (0 : ℝ) < (x : ℝ) := by exact_mod_cast hx
  have hyr : (0 : ℝ) < (y : ℝ) := by exact_mod_cast hy
  have hcast : ratLog (x / y) = Real.log ((x : ℝ) / (y : ℝ)) := by
    unfold ratLog; rw [Rat.cast_div]
  have hlog : Real.log ((y : ℝ) / (x : ℝ)) ≤ (y : ℝ) / (x : ℝ) - 1 :=
    Real.log_le_sub_one_of_pos (div_pos hyr hxr)
  have hswap : Real.log ((x : ℝ) / (y : ℝ)) = -Real.log ((y : ℝ) / (x : ℝ)) := by
    rw [← Real.log_inv, inv_div]
  rw [hcast, hswap, mul_neg]
  have h1 : (x : ℝ) * Real.log ((y : ℝ) / (x : ℝ)) ≤ (x : ℝ) * ((y : ℝ) / (x : ℝ) - 1) :=
    mul_le_mul_of_nonneg_left hlog hxr.le
  have h2 : (x : ℝ) * ((y : ℝ) / (x : ℝ) - 1) = (y : ℝ) - (x : ℝ) := by
    field_simp
  linarith

lemma klMultinomial_nonneg (a b : List ℚ) (s : ℝ)
    (hlen : a.length ≤ b.length)
    (ha : ∀ x ∈ a, 0 ≤ x) (hb : ∀ x ∈ b, 0 ≤ x)
    (hsa : a.sum = 1) (hsb : b.sum ≤ 1)
    (h : klMultinomial ratLog a b = some s) : 0 ≤ s := by
  unfold klMultinomial at h
  by_cases hcnd : klCond (a.zip b)
  · rw [if_pos hcnd] at h
    cases h
  · rw [if_neg hcnd] at h
    have hs := Option.some.inj h
    have hnoinf : ∀ pr ∈ a.zip b, ¬(pr.1 ≠ 0 ∧ pr.2 = 0) := by
      intro pr hpr hcon
      apply hcnd
      unfold klCond
      rw [List.any_eq_true]
      exact ⟨pr, hpr, by simpa using hcon⟩
    have hposmem : ∀ pr ∈ klFilter (a.zip b), 0 < pr.1 ∧ 0 < pr.2 := by
      intro pr hpr
      have h1 := List.mem_filter.mp hpr
      have h2 : pr.1 ≠ 0 ∧ pr.2 ≠ 0 := by simpa using h1.2
      have hz := List.mem_zip h1.1
      exact ⟨lt_of_le_of_ne (ha _ hz.1) (Ne.symm h2.1),
        lt_of_le_of_ne (hb _ hz.2) (Ne.symm h2.2)⟩
    have hbound : ∀ pr ∈ klFilter (a.zip b),
        (fun pr : ℚ × ℚ => (pr.1 : ℝ) - (pr.2 : ℝ)) pr ≤
        (fun pr : ℚ × ℚ => (pr.1 : ℝ) * ratLog (pr.1 / pr.2)) pr := by
      intro pr hpr
      exact kl_term_lower pr.1 pr.2 (hposmem pr hpr).1 (hposmem pr hpr).2
    have hsum := List.sum_le_sum hbound
    have hsub := sum_map_sub_pair (klFilter (a.zip b))
      (fun pr => (pr.1 : ℝ)) (fun pr => (pr.2 : ℝ))
    have hfst : ((klFilter (a.zip b)).map (fun pr => (pr.1 : ℝ))).sum = 1 := by
      rw [klFilter_fst_sum _ hnoinf, zip_map_fst_cast a b hlen, hsa]
      norm_num
    have hsnd : ((klFilter (a.zip b)).map (fun pr => (pr.2 : ℝ))).sum ≤ 1 := by
      calc ((klFilter (a.zip b)).map (fun pr => (pr.2 : ℝ))).sum
          ≤ ((a.zip b).map (fun pr => (pr.2 : ℝ))).sum :=
            klFilter_snd_sum_le _ (fun pr hpr => (List.mem_zip hpr).2 |> hb _)
        _ ≤ ((b.sum : ℚ) : ℝ) := sum_snd_zip_le a b hb
        _ ≤ 1 := by exact_mod_cast hsb
    rw [← hs]
    linarith [hsum, hsub, hfst, hsnd]

lemma expNegC_nonneg (c : ℝ) (o : Option ℝ) : 0 ≤ expNegC c o := by
  cases o with
  | none => exact le_refl 0
  | some t => exact (Real.exp_pos _).le

lemma expNegC_le_one (c : ℝ) (hc : 0 < c) (o : Option ℝ)
    (h : ∀ t, o = some t → 0 ≤ t) : expNegC c o ≤ 1 := by
  cases o with
  | none => norm_num [expNegC]
  | some t =>
    have ht := h t rfl
    unfold expNegC
    have hle : -(c * t) ≤ 0 := by nlinarith
    calc Real.exp (-(c * t)) ≤ Real.exp 0 := Real.exp_le_exp.mpr hle
      _ = 1 := Real.exp_zero

lemma mixQ_nonneg (w : ℚ) (hw0 : 0 ≤ w) (hw1 : w ≤ 1) :
    ∀ p q : List ℚ, (∀ x ∈ p, 0 ≤ x) → (∀ x ∈ q, 0 ≤ x) →
      ∀ x ∈ mixQ w p q, 0 ≤ x := by
  intro p
  induction p with
  | nil => intro q _ _ x hx; simp [mixQ] at hx
  | cons a t ih =>
    intro q hp hq x hx
    cases q with
    | nil => simp [mixQ] at hx
    | cons b s =>
      simp only [mixQ, List.zipWith_cons_cons, List.mem_cons] at hx
      rcases hx with h1 | h1
      · have ha := hp a (List.mem_cons_self a t)
        have hb := hq b (List.mem_cons_self b s)
        subst h1
        exact add_nonneg (mul_nonneg hw0 ha) (mul_nonneg (by linarith) hb)
      · exact ih s (fun y hy => hp y (List.mem_cons_of_mem _ hy))
          (fun y hy => hq y (List.mem_cons_of_mem _ hy)) x h1

lemma mixQ_sum (w : ℚ) : ∀ p q : List ℚ, p.length = q.length →
    (mixQ w p q).sum = w * p.sum + (1 - w) * q.sum := by
  intro p
  induction p with
  | nil =>
    intro q h
    cases q with
    | nil => simp [mixQ]
    | cons b s => simp at h
  | cons a t ih =>
    intro q h
    cases q with
    | nil => simp at h
    | cons b s =>
      have h2 : t.length = s.length := by simpa using h
      simp only [mixQ, List.zipWith_cons_cons, List.sum_cons]
      have h3 : (List.zipWith (fun pi qi => w * pi + (1 - w) * qi) t s).sum =
          w * t.sum + (1 - w) * s.sum := ih s h2
      rw [h3]
      ring

lemma mixQ_length (w : ℚ) (p q : List ℚ) :
    (mixQ w p q).length = min p.length q.length := by
  unfold mixQ
  exact List.length_zipWith _ _ _

lemma curve_coord_bound (c : ℝ) (hc : 0 < c) (a b : List ℚ)
    (hlen : a.length ≤ b.length)
    (ha : ∀ x ∈ a, 0 ≤ x) (hb : ∀ x ∈ b, 0 ≤ x)
    (hsa : a.sum = 1) (hsb : b.sum ≤ 1) :
    0 ≤ expNegC c (klMultinomial ratLog a b) ∧
      expNegC c (klMultinomial ratLog a b) ≤ 1 :=
  ⟨expNegC_nonneg c _,
   expNegC_le_one c hc _ (fun t hts => klMultinomial_nonneg a b t hlen ha hb hsa hsb hts)⟩

/-- C7 counterexample: on the bin pair `a = [-1]`, `b = [0]` the source
returns `np.inf` (the guard tests `p != 0`, not `p > 0`), while the claim's
convention, which only excepts bins with `a > 0` and `b == 0`, prescribes
the empty sum `0`. -/
theorem c7_counterexample :
    klMultinomial (fun _ => (0 : ℝ)) [-1] [0] = none ∧
    klSpecConvention (fun _ => (0 : ℝ)) [-1] [0] = some 0 := by
  constructor
  · with_unfolding_all rfl
  · with_unfolding_all rfl

/-- C7 (amended): restricted to vectors with non-negative entries — the only
ones the pipeline ever feeds to it — `kl_multinomial` realises exactly the
claim's convention: `+∞` iff some bin has `a > 0` and `b == 0`, otherwise
the sum over bins with `a > 0` and `b > 0` of `a·log(a/b)` (bins with
`a == 0` contribute nothing, whatever `b` is), for every logarithm
function. -/
theorem c7_kl_convention_on_nonneg (lg : ℚ → ℝ) (p q : List ℚ)
    (hlen : p.length = q.length)
    (hp : ∀ x ∈ p, 0 ≤ x) (hq : ∀ x ∈ q, 0 ≤ x) :
    klMultinomial lg p q = klSpecConvention lg p q := by
  unfold klMultinomial klSpecConvention
  have hmem : ∀ pr ∈ p.zip q, 0 ≤ pr.1 ∧ 0 ≤ pr.2 := by
    intro pr hpr
    have hz := List.mem_zip hpr
    exact ⟨hp _ hz.1, hq _ hz.2⟩
  have hcond : klCond (p.zip q) =
      (p.zip q).any (fun pr => decide (0 < pr.1 ∧ pr.2 = 0)) := by
    unfold klCond
    rw [Bool.eq_iff_iff]
    simp only [List.any_eq_true, decide_eq_true_eq]
    constructor
    · rintro ⟨pr, hpr, hne, he⟩
      exact ⟨pr, hpr, lt_of_le_of_ne (hmem pr hpr).1 (Ne.symm hne), he⟩
    · rintro ⟨pr, hpr, hpos, he⟩
      exact ⟨pr, hpr, ne_of_gt hpos, he⟩
  have hfilt : klFilter (p.zip q) =
      (p.zip q).filter (fun pr => decide (0 < pr.1 ∧ 0 < pr.2)) := by
    unfold klFilter
    apply List.filter_congr
    intro pr hpr
    have h := hmem pr hpr
    simp only [decide_eq_decide]
    constructor
    · rintro ⟨h1, h2⟩
      exact ⟨lt_of_le_of_ne h.1 (Ne.symm h1), lt_of_le_of_ne h.2 (Ne.symm h2)⟩
    · rintro ⟨h1, h2⟩
      exact ⟨ne_of_gt h1, ne_of_gt h2⟩
  rw [hcond, hfilt]

/-- Witness for C7 at the concrete non-negative vectors `[1/2, 0]` and
`[1/2, 1/2]` with the zero logarithm. -/
theorem c7_witness :
    (([1/2, 0] : List ℚ).length = ([1/2, 1/2] : List ℚ).length ∧
     (∀ x ∈ ([1/2, 0] : List ℚ), 0 ≤ x) ∧
     (∀ x ∈ ([1/2, 1/2] : List ℚ), 0 ≤ x)) ∧
    klMultinomial (fun _ => (0 : ℝ)) [1/2, 0] [1/2, 1/2] =
      klSpecConvention (fun _ => (0 : ℝ)) [1/2, 0] [1/2, 1/2] := by
  refine ⟨⟨rfl, by with_unfolding_all decide, by with_unfolding_all decide⟩,
    c7_kl_convention_on_nonneg (fun _ => 0) [1/2, 0] [1/2, 1/2] rfl
      (by with_unfolding_all decide) (by with_unfolding_all decide)⟩

/-- C6: for equal-length non-negative histograms summing to one, mixture
weights inside `[0, 1]` and a positive scaling factor, every coordinate of
the divergence curve lies in `[0, 1]`, the first curve point is exactly
`(1, 0)` (the image of the prepended extreme KL pair `(0, +inf)` under
`x ↦ exp(-c·x)`), and the last point is exactly `(0, 1)` (the image of the
appended `(+inf, 0)`). -/
theorem c6_divergence_curve_bounds (p q : List ℚ) (ws : List ℚ) (c : ℝ)
    (hlen : p.length = q.length)
    (hp : ∀ x ∈ p, 0 ≤ x) (hq : ∀ x ∈ q, 0 ≤ x)
    (hps : p.sum = 1) (hqs : q.sum = 1)
    (hws : ∀ w ∈ ws, 0 ≤ w ∧ w ≤ 1) (hc : 0 < c) :
    (∀ z ∈ divergenceCurve p q ws c,
      (0 ≤ z.1 ∧ z.1 ≤ 1) ∧ (0 ≤ z.2 ∧ z.2 ≤ 1)) ∧
    (divergenceCurve p q ws c).head? = some (1, 0) ∧
    (divergenceCurve p q ws c).getLast? = some (0, 1) := by
  have hone : expNegC c (some 0) = 1 := by
    show Real.exp (-(c * 0)) = 1
    rw [mul_zero, neg_zero, Real.exp_zero]
  have hzero : expNegC c none = 0 := rfl
  refine ⟨?_, ?_, ?_⟩
  · intro z hz
    unfold divergenceCurve at hz
    rcases List.mem_map.mp hz with ⟨pr, hpr, hfz⟩
    rcases List.mem_cons.mp hpr with h1 | h1
    · rw [← hfz, h1]
      simp only [hone, hzero]
      norm_num
    · rcases List.mem_append.mp h1 with h2 | h2
      · rcases List.mem_map.mp h2 with ⟨w, hw, hwpr⟩
        have hwmem : w ∈ ws := (List.Perm.mem_iff (List.perm_insertionSort _ ws)).mp hw
        obtain ⟨hw0, hw1⟩ := hws w hwmem
        have hrlen : (mixQ w p q).length = q.length := by
          rw [mixQ_length, hlen, min_self]
        have hrnn : ∀ x ∈ mixQ w p q, 0 ≤ x := mixQ_nonneg w hw0 hw1 p q hp hq
        have hrsum : (mixQ w p q).sum = 1 := by
          rw [mixQ_sum w p q hlen, hps, hqs]
          ring
        have hqlen : q.length ≤ (mixQ w p q).length := le_of_eq hrlen.symm
        have hplen : p.length ≤ (mixQ w p q).length := by
          rw [hrlen]
          exact le_of_eq hlen
        have hq_b := curve_coord_bound c hc q (mixQ w p q)
          hqlen hq hrnn hqs (le_of_eq hrsum)
        have hp_b := curve_coord_bound c hc p (mixQ w p q)
          hplen hp hrnn hps (le_of_eq hrsum)
        rw [← hfz, ← hwpr]
        exact ⟨hq_b, hp_b⟩
      · have h3 : pr = ((none : Option ℝ), some (0 : ℝ)) := by simpa using h2
        rw [← hfz, h3]
        simp only [hone, hzero]
        norm_num
  · unfold divergenceCurve
    rw [List.cons_append, List.map_cons, List.head?_cons, hone]
    rfl
  · unfold divergenceCurve
    simp only [List.map_append, List.map_cons, List.map_nil]
    rw [List.getLast?_concat]
    simp only [hone, hzero]

/-- Witness for C6 at the concrete histograms `[1/2, 1/2]` and `[1, 0]`,
the weight list `[1/2]` and the scaling factor `1`. -/
theorem c6_witness :
    (([1/2, 1/2] : List ℚ).length = ([1, 0] : List ℚ).length ∧
     (∀ x ∈ ([1/2, 1/2] : List ℚ), 0 ≤ x) ∧
     (∀ x ∈ ([1, 0] : List ℚ), 0 ≤ x) ∧
     ([1/2, 1/2] : List ℚ).sum = 1 ∧ ([1, 0] : List ℚ).sum = 1 ∧
     (∀ w ∈ ([1/2] : List ℚ), 0 ≤ w ∧ w ≤ 1) ∧ (0 : ℝ) < 1) ∧
    ((∀ z ∈ divergenceCurve [1/2, 1/2] [1, 0] [1/2] 1,
        (0 ≤ z.1 ∧ z.1 ≤ 1) ∧ (0 ≤ z.2 ∧ z.2 ≤ 1)) ∧
     (divergenceCurve [1/2, 1/2] [1, 0] [1/2] 1).head? = some (1, 0) ∧
     (divergenceCurve [1/2, 1/2] [1, 0] [1/2] 1).getLast? = some (0, 1)) := by
  refine ⟨⟨rfl, by with_unfolding_all decide, by with_unfolding_all decide,
      by with_unfolding_all decide, by with_unfolding_all decide,
      by with_unfolding_all decide, by norm_num⟩,
    c6_divergence_curve_bounds [1/2, 1/2] [1, 0] [1/2] 1 rfl
      (by with_unfolding_all decide) (by with_unfolding_all decide)
      (by with_unfolding_all decide) (by with_unfolding_all decide)
      (by with_unfolding_all decide) (by norm_num)⟩

end Mauve
